import Mathlib

/-!
Shallow embedding of `src/hash.c` (pbackus/hash): a string-keyed,
int-valued separate-chaining hash table with incremental load-factor
tracking and all-or-nothing grow/shrink resizing.

Machine details of the C source are modelled as follows:

* `unsigned long` arithmetic in the djb2 hash is taken modulo `2 ^ 64`
  (LP64).  Bucket indices are `digest % bucket_count` with power-of-two
  bucket counts dividing `2 ^ 64`, so the index is independent of the
  word width actually chosen.
* C `double` load-factor arithmetic is modelled with exact rationals:
  every value the accumulator takes is `k / 2 ^ m` with the table's
  power-of-two bucket count as denominator (constant over one table's
  lifetime), and IEEE-754 double operations on such dyadic rationals
  are exact while `k < 2 ^ 53`, far beyond any feasible entry count.
* `malloc` failure is modelled by an explicit allocation oracle
  `List Bool` threaded through each fallible operation: each allocation
  consumes the head of the list (`true` = success); an empty oracle
  means every remaining allocation succeeds.
* Functions that can fail return `Option`; `hash_set`'s `abort()` on
  entry-allocation failure is modelled by returning `none`.
-/

namespace HashC

/-- MIN_BUCKET_COUNT from hash.c line 7. -/
def MIN_BUCKET_COUNT : Nat := 32

/-- GROW_THRESHOLD from hash.c line 14 (the double 1.5, exact). -/
def GROW_THRESHOLD : ℚ := 3 / 2

/-- SHRINK_THRESHOLD from hash.c line 15 (`GROW_THRESHOLD / 4.0` = 0.375, exact). -/
def SHRINK_THRESHOLD : ℚ := GROW_THRESHOLD / 4

/-- struct hash_entry (hash.c lines 17-21): an owned key copy and a value.
The `next` link is represented by the position in a `List Entry` chain. -/
structure Entry where
  key : String
  value : Int
deriving DecidableEq

/-- struct hash_table (hash.c lines 23-27): the load-factor accumulator and
the bucket array; each bucket is its chain of entries, head first.
`bucket_count` is the length of the bucket array. -/
structure Hash where
  load_factor : ℚ
  buckets : List (List Entry)
deriving DecidableEq

/-- bucket_count field of struct hash_table: always equal to the length of
the flexible bucket array it describes. -/
def Hash.bucket_count (h : Hash) : Nat := h.buckets.length

/-- hash (hash.c lines 32-42): the djb2 recurrence `hash = hash * 33 + c`
over the bytes of the key, in `unsigned long` (64-bit) arithmetic,
starting from 5381. -/
def hashFn (key : String) : Nat :=
  key.toList.foldl (fun h c => (h * 33 + c.toNat) % 2 ^ 64) 5381

/-- bucket index `hash(key) % self->bucket_count`, computed at each call
site of hash.c (lines 146, 290, 324). -/
def bidx (self : Hash) (key : String) : Nat :=
  hashFn key % self.bucket_count

/-- the chain stored in bucket `i` (out-of-range reads never occur in the
source; `getD` returns `[]` there). -/
def Hash.bucket (h : Hash) (i : Nat) : List Entry := h.buckets.getD i []

/-- one `malloc` against the allocation oracle: consume the head outcome,
an exhausted oracle always succeeds. -/
def allocOne : List Bool → Bool × List Bool
  | [] => (true, [])
  | b :: rest => (b, rest)

/-- make_hash (hash.c lines 50-64): allocate a table with `bucket_count`
empty buckets and zero load factor, or fail if the allocation fails. -/
def make_hash (bucket_count : Nat) (a : List Bool) : Option Hash × List Bool :=
  match allocOne a with
  | (false, a) => (none, a)
  | (true, a) => (some ⟨0, List.replicate bucket_count []⟩, a)

/-- hash_new (hash.c lines 70-74): a fresh table with the minimum bucket
count. -/
def hash_new (a : List Bool) : Option Hash × List Bool :=
  make_hash MIN_BUCKET_COUNT a

/-- make_entry (hash.c lines 115-135): two allocations (the entry, then the
owned key copy); fails if either fails. -/
def make_entry (key : String) (value : Int) (a : List Bool) :
    Option Entry × List Bool :=
  match allocOne a with
  | (false, a) => (none, a)
  | (true, a) =>
    match allocOne a with
    | (false, a) => (none, a)
    | (true, a) => (some ⟨key, value⟩, a)

/-- overwrite in place: the effect of `entry->value = value` on the first
chain entry whose key matches (hash.c line 155). -/
def chainUpdate : List Entry → String → Int → List Entry
  | [], _, _ => []
  | e :: rest, key, value =>
    if e.key == key then ⟨e.key, value⟩ :: rest
    else e :: chainUpdate rest key value

/-- try_set (hash.c lines 143-169): search the key's chain; if found,
overwrite the value in place; otherwise allocate a new entry, link it at
the chain head and add `1 / bucket_count` to the load factor. -/
def try_set (self : Hash) (key : String) (value : Int) (a : List Bool) :
    Option Hash × List Bool :=
  let i := bidx self key
  let chain := self.bucket i
  match chain.find? (fun e => e.key == key) with
  | some _ =>
    (some ⟨self.load_factor, self.buckets.set i (chainUpdate chain key value)⟩, a)
  | none =>
    match make_entry key value a with
    | (none, a) => (none, a)
    | (some e, a) =>
      (some ⟨self.load_factor + 1 / (self.bucket_count : ℚ),
             self.buckets.set i (e :: chain)⟩, a)

/-- hash_iterate (hash.c lines 177-186): fold the callback over every entry,
bucket by bucket in index order, each chain head to tail.  The C context
pointer, and any state the callback keeps behind it, is the threaded
accumulator. -/
def hash_iterate {α : Type _} (self : Hash) (callback : String → Int → α → α)
    (context : α) : α :=
  self.buckets.foldl
    (fun ctx chain => chain.foldl (fun ctx e => callback e.key e.value ctx) ctx)
    context

/-- struct resize_ctx (hash.c lines 189-192) plus the allocation oracle
(the heap state, implicit in C). -/
structure resize_ctx where
  success : Bool
  new_self : Hash
  alloc : List Bool
deriving DecidableEq

/-- resize_callback (hash.c lines 201-210):
`*success = *success && try_set(new_self, k, v)`; `&&` short-circuits, so
once a re-insert has failed no further try_set runs. -/
def resize_callback (k : String) (v : Int) (context : resize_ctx) : resize_ctx :=
  if context.success then
    match try_set context.new_self k v context.alloc with
    | (some h, a) => ⟨true, h, a⟩
    | (none, a) => ⟨false, context.new_self, a⟩
  else context

/-- try_resize (hash.c lines 219-237): allocate a fresh table of `new_size`
buckets, re-insert every entry of `self` via hash_iterate, and return the
new table only if every re-insert succeeded; otherwise discard it. -/
def try_resize (self : Hash) (new_size : Nat) (a : List Bool) :
    Option Hash × List Bool :=
  match make_hash new_size a with
  | (none, a) => (none, a)
  | (some fresh, a) =>
    let result := hash_iterate self resize_callback ⟨true, fresh, a⟩
    if result.success then (some result.new_self, result.alloc)
    else (none, result.alloc)

/-- hash_set (hash.c lines 245-272): structural insert via try_set (abort,
modelled as `none`, if entry allocation fails), then if the load factor
exceeds GROW_THRESHOLD attempt a grow resize to double the bucket count,
keeping the old table if the resize fails. -/
def hash_set (self : Hash) (key : String) (value : Int) (a : List Bool) :
    Option Hash × List Bool :=
  match try_set self key value a with
  | (none, a) => (none, a)
  | (some self, a) =>
    if GROW_THRESHOLD < self.load_factor then
      match try_resize self (self.bucket_count * 2) a with
      | (none, a) => (some self, a)
      | (some new_self, a) => (some new_self, a)
    else
      (some self, a)

/-- hash_get (hash.c lines 284-306): search the key's chain; `some v` means
"return 1 and store v through value_out", `none` means "return 0". -/
def hash_get (self : Hash) (key : String) : Option Int :=
  ((self.bucket (bidx self key)).find? (fun e => e.key == key)).map Entry.value

/-- unlink of the first matching chain entry: the effect of
`*entryp = entry->next` (hash.c line 337). -/
def chainRemove : List Entry → String → List Entry
  | [], _ => []
  | e :: rest, key => if e.key == key then rest else e :: chainRemove rest key

/-- structural phase of hash_remove (hash.c lines 324-343): if the key is
found, unlink and free its entry and subtract `1 / bucket_count` from the
load factor; otherwise leave the table untouched. -/
def hash_unlink (self : Hash) (key : String) : Hash :=
  let i := bidx self key
  let chain := self.bucket i
  match chain.find? (fun e => e.key == key) with
  | some _ =>
    ⟨self.load_factor - 1 / (self.bucket_count : ℚ),
     self.buckets.set i (chainRemove chain key)⟩
  | none => self

/-- hash_remove (hash.c lines 316-359): unlink the key if present, then —
found or not — if the load factor is below SHRINK_THRESHOLD and the bucket
count above the minimum, attempt a shrink resize to half the bucket count,
keeping the old table if the resize fails. -/
def hash_remove (self : Hash) (key : String) (a : List Bool) :
    Hash × List Bool :=
  let self := hash_unlink self key
  if SHRINK_THRESHOLD > self.load_factor ∧ MIN_BUCKET_COUNT < self.bucket_count then
    match try_resize self (self.bucket_count / 2) a with
    | (none, a) => (self, a)
    | (some new_self, a) => (new_self, a)
  else
    (self, a)

/-- all entries currently stored, in iteration order. -/
def Hash.entries (h : Hash) : List Entry := h.buckets.flatten

/-- number of stored entries. -/
def Hash.size (h : Hash) : Nat := h.entries.length

/-- structural well-formedness maintained by every operation of hash.c:
the bucket count is a power of two at least MIN_BUCKET_COUNT, every entry
sits in the bucket its key hashes to, keys are pairwise distinct within
each chain, and the load-factor accumulator equals size / bucket_count. -/
def WF (h : Hash) : Prop :=
  MIN_BUCKET_COUNT ≤ h.bucket_count ∧
  h.bucket_count = 2 ^ Nat.log2 h.bucket_count ∧
  (∀ i < h.bucket_count, ∀ e ∈ h.bucket i, bidx h e.key = i) ∧
  (∀ i < h.bucket_count, ((h.bucket i).map Entry.key).Nodup) ∧
  h.load_factor = (h.size : ℚ) / (h.bucket_count : ℚ)

instance (h : Hash) : Decidable (WF h) := by
  unfold WF; infer_instance

/-- tables reachable from hash_new by any sequence of hash_set and
hash_remove calls, under any pattern of allocation successes and
failures. -/
inductive Reachable : Hash → Prop where
  | new : ∀ a h rest, hash_new a = (some h, rest) → Reachable h
  | set : ∀ h key value a h2 rest, Reachable h →
      hash_set h key value a = (some h2, rest) → Reachable h2
  | rem : ∀ h key a h2 rest, Reachable h →
      hash_remove h key a = (h2, rest) → Reachable h2

/-- the table hash_new yields when its allocation succeeds. -/
def emptyTable : Hash := ((hash_new []).1).getD ⟨0, []⟩

/-- fold hash_set over a list of pairs with every allocation succeeding. -/
def setAll (t : Hash) (ks : List (String × Int)) : Hash :=
  ks.foldl (fun t kv => ((hash_set t kv.1 kv.2 []).1).getD t) t

/-- keys "0", "1", ... paired with their numeric values, as produced by the
insertion loops of hash_test.c. -/
def keysN (n : Nat) : List (String × Int) :=
  (List.range n).map (fun i => (toString i, (i : Int)))

/-- the test_grow scenario of hash_test.c: 100 distinct keys inserted into a
fresh table, forcing grows at the 49th and 97th inserts. -/
def table100 : Hash := setAll emptyTable (keysN 100)

/-- 48 distinct keys in a fresh table: load factor exactly 48/32 = 3/2, one
insert short of the grow threshold. -/
def table48 : Hash := setAll emptyTable (keysN 48)

/-- insert the 49th key while the grow resize's table allocation fails
(oracle: entry and key-copy allocations succeed, make_hash fails): the grow
is deferred, leaving 32 buckets at load factor 49/32 > 3/2. -/
def tableDeferredGrow : Hash :=
  ((hash_set table48 "48" 48 [true, true, false]).1).getD table48

/-- fold hash_remove with the resize allocation failing each time. -/
def removeAll (t : Hash) (ks : List String) : Hash :=
  ks.foldl (fun t k => (hash_remove t k [false]).1) t

/-- 49 inserts grow the table to 64 buckets; removing keys "0".."25" with
every shrink allocation failing leaves 23 entries in 64 buckets at load
factor 23/64 < 0.375: a deferred shrink is pending. -/
def tableDeferredShrink : Hash :=
  removeAll (setAll emptyTable (keysN 49)) ((List.range 26).map toString)

/-- an iteration callback that records each visited pair behind the context
pointer. -/
def visitLog (k : String) (v : Int) (acc : List (String × Int)) :
    List (String × Int) :=
  acc ++ [(k, v)]

/-- the table {foo -> 1, bar -> 2, baz -> 3} of the iteration test. -/
def table3 : Hash := setAll emptyTable [("foo", 1), ("bar", 2), ("baz", 3)]

/-- the re-insertion pass of try_resize as an explicit fold over a list of
entries (hash_iterate visits exactly the entry list of the table). -/
def insList (st : resize_ctx) (L : List Entry) : resize_ctx :=
  L.foldl (fun st e => resize_callback e.key e.value st) st

/-- emptyTable with one pair inserted. -/
def tableFoo : Hash := ((hash_set emptyTable "foo" 7 []).1).getD emptyTable

/-- the structural result of inserting the 49th key into table48 (49
entries in 32 buckets, load factor 49/32), before any grow runs. -/
def table49 : Hash := ((try_set table48 "48" 48 []).1).getD table48

/-- the grown table try_resize builds from table49 at doubled size. -/
def table49grown : Hash :=
  ((try_resize table49 (table49.bucket_count * 2) []).1).getD table49

/-- table48 rebuilt at 64 buckets by a successful try_resize. -/
def table48grown : Hash := ((try_resize table48 64 []).1).getD table48

/-- result of retrying the deferred grow: hash_set of the already-present
key "0" on tableDeferredGrow, with all allocations succeeding. -/
def tableDGupd : Hash :=
  ((hash_set tableDeferredGrow "0" 999 []).1).getD tableDeferredGrow

/-- one removal short of tableDeferredShrink: 24 entries in 64 buckets. -/
def tableBeforeShrink : Hash :=
  removeAll (setAll emptyTable (keysN 49)) ((List.range 25).map toString)

/-- the shrunken table try_resize builds from tableDeferredShrink at half
size. -/
def tableShrunk : Hash :=
  ((try_resize tableDeferredShrink (tableDeferredShrink.bucket_count / 2)
    []).1).getD tableDeferredShrink

/-- the table try_set produces when it finds the key and overwrites the
value in place (hash.c lines 154-155). -/
def updTable (h : Hash) (k : String) (v : Int) : Hash :=
  Hash.mk h.load_factor
    (h.buckets.set (bidx h k) (chainUpdate (h.bucket (bidx h k)) k v))

/-- the table try_set produces when it links a fresh entry at the chain
head and bumps the load factor (hash.c lines 158-165). -/
def insTable (h : Hash) (k : String) (v : Int) : Hash :=
  Hash.mk (h.load_factor + 1 / (h.bucket_count : ℚ))
    (h.buckets.set (bidx h k) (⟨k, v⟩ :: h.bucket (bidx h k)))

/-- the table hash_remove's structural phase produces when it unlinks a
present key (hash.c lines 333-343). -/
def remTable (h : Hash) (k : String) : Hash :=
  Hash.mk (h.load_factor - 1 / (h.bucket_count : ℚ))
    (h.buckets.set (bidx h k) (chainRemove (h.bucket (bidx h k)) k))

/-! Chain-level lemmas: the `while` loops of try_set, hash_get and
hash_remove are `List.find?` over one bucket chain; chainUpdate and
chainRemove are the in-place value overwrite and the unlink. -/

theorem find?_key_none {l : List Entry} {k : String} :
    l.find? (fun e => e.key == k) = none ↔ ∀ e ∈ l, e.key ≠ k := by
  rw [List.find?_eq_none]
  simp

theorem find?_key_mem_nodup {l : List Entry} {e : Entry}
    (hnd : (l.map Entry.key).Nodup) (he : e ∈ l) :
    l.find? (fun x => x.key == e.key) = some e := by
  induction l with
  | nil => cases he
  | cons x rest ih =>
    simp only [List.map_cons, List.nodup_cons] at hnd
    rcases List.mem_cons.mp he with rfl | hrest
    · simp [List.find?_cons]
    · have hxk : (x.key == e.key) = false := by
        rw [beq_eq_false_iff_ne]
        intro hcontra
        exact hnd.1 (hcontra ▸ List.mem_map_of_mem Entry.key hrest)
      rw [List.find?_cons, hxk]
      exact ih hnd.2 hrest

theorem chainUpdate_map_key (l : List Entry) (k : String) (v : Int) :
    (chainUpdate l k v).map Entry.key = l.map Entry.key := by
  induction l with
  | nil => rfl
  | cons e rest ih =>
    by_cases hek : (e.key == k) = true <;> simp [chainUpdate, hek, ih]

theorem chainUpdate_length (l : List Entry) (k : String) (v : Int) :
    (chainUpdate l k v).length = l.length := by
  have := congrArg List.length (chainUpdate_map_key l k v)
  simpa using this

theorem find?_chainUpdate_self {l : List Entry} {k : String} {v : Int}
    {e : Entry} (hf : l.find? (fun x => x.key == k) = some e) :
    (chainUpdate l k v).find? (fun x => x.key == k) = some ⟨e.key, v⟩ := by
  induction l with
  | nil => cases hf
  | cons x rest ih =>
    rw [List.find?_cons] at hf
    cases hxk : (x.key == k) with
    | true =>
      rw [hxk] at hf
      cases hf
      simp [chainUpdate, hxk, List.find?_cons]
    | false =>
      rw [hxk] at hf
      simp only [chainUpdate, hxk, Bool.false_eq_true, if_false]
      rw [List.find?_cons, hxk]
      exact ih hf

theorem find?_chainUpdate_ne {l : List Entry} {k k2 : String} {v : Int}
    (hne : k2 ≠ k) :
    (chainUpdate l k v).find? (fun x => x.key == k2)
      = l.find? (fun x => x.key == k2) := by
  induction l with
  | nil => rfl
  | cons x rest ih =>
    cases hxk : (x.key == k) with
    | true =>
      have hxk2 : (x.key == k2) = false := by
        rw [beq_eq_false_iff_ne]
        rw [show x.key = k from eq_of_beq hxk]
        exact fun hc => hne hc.symm
      simp only [chainUpdate, hxk, if_true]
      rw [List.find?_cons, List.find?_cons]
      simp only [show ((⟨x.key, v⟩ : Entry).key == k2) = false from hxk2, hxk2]
    | false =>
      simp only [chainUpdate, hxk, Bool.false_eq_true, if_false]
      rw [List.find?_cons, List.find?_cons]
      cases hxk2 : (x.key == k2) <;> simp [ih]

theorem chainRemove_sublist (l : List Entry) (k : String) :
    (chainRemove l k).Sublist l := by
  induction l with
  | nil => exact List.Sublist.refl _
  | cons e rest ih =>
    by_cases hek : (e.key == k) = true
    · simp only [chainRemove, hek, if_true]
      exact List.sublist_cons_self e rest
    · simp only [chainRemove, hek, if_false]
      exact ih.cons₂ e

theorem chainRemove_map_key_nodup {l : List Entry} {k : String}
    (hnd : (l.map Entry.key).Nodup) :
    ((chainRemove l k).map Entry.key).Nodup :=
  List.Nodup.sublist (List.Sublist.map Entry.key (chainRemove_sublist l k)) hnd

theorem find?_chainRemove_self {l : List Entry} {k : String}
    (hnd : (l.map Entry.key).Nodup) :
    (chainRemove l k).find? (fun x => x.key == k) = none := by
  induction l with
  | nil => rfl
  | cons x rest ih =>
    simp only [List.map_cons, List.nodup_cons] at hnd
    cases hxk : (x.key == k) with
    | true =>
      simp only [chainRemove, hxk, if_true]
      rw [find?_key_none]
      intro e he hek
      have hmem : e.key ∈ List.map Entry.key rest := List.mem_map_of_mem Entry.key he
      rw [hek, ← eq_of_beq hxk] at hmem
      exact hnd.1 hmem
    | false =>
      simp only [chainRemove, hxk, Bool.false_eq_true, if_false]
      rw [List.find?_cons, hxk]
      exact ih hnd.2

theorem find?_chainRemove_ne {l : List Entry} {k k2 : String} (hne : k2 ≠ k) :
    (chainRemove l k).find? (fun x => x.key == k2)
      = l.find? (fun x => x.key == k2) := by
  induction l with
  | nil => rfl
  | cons x rest ih =>
    cases hxk : (x.key == k) with
    | true =>
      have hxk2 : (x.key == k2) = false := by
        rw [beq_eq_false_iff_ne]
        rw [show x.key = k from eq_of_beq hxk]
        exact fun hc => hne hc.symm
      simp only [chainRemove, hxk, if_true]
      rw [List.find?_cons, hxk2]
    | false =>
      simp only [chainRemove, hxk, Bool.false_eq_true, if_false]
      rw [List.find?_cons, List.find?_cons]
      cases hxk2 : (x.key == k2) <;> simp [ih]

theorem chainRemove_length_found {l : List Entry} {k : String} {e : Entry}
    (hf : l.find? (fun x => x.key == k) = some e) :
    (chainRemove l k).length + 1 = l.length := by
  induction l with
  | nil => cases hf
  | cons x rest ih =>
    rw [List.find?_cons] at hf
    cases hxk : (x.key == k) with
    | true => simp [chainRemove, hxk]
    | false =>
      rw [hxk] at hf
      simp only [chainRemove, hxk, Bool.false_eq_true, if_false,
        List.length_cons]
      rw [← ih hf]

/-! Bucket-array lemmas: reading and writing one slot of the flexible
bucket array, and the effect on the total entry count. -/

theorem bucket_set_self {bs : List (List Entry)} {i : Nat} {c : List Entry}
    (hi : i < bs.length) : (bs.set i c).getD i [] = c := by
  rw [List.getD_eq_getElem _ _ (by simpa using hi)]
  exact List.getElem_set_self (by simpa using hi)

theorem bucket_set_ne {bs : List (List Entry)} {i j : Nat} {c : List Entry}
    (hne : i ≠ j) : (bs.set i c).getD j [] = bs.getD j [] := by
  rcases Nat.lt_or_ge j bs.length with hj | hj
  · rw [List.getD_eq_getElem _ _ (by simpa using hj),
      List.getD_eq_getElem _ _ hj]
    exact List.getElem_set_ne hne _
  · rw [List.getD_eq_default _ _ (by simpa using hj),
      List.getD_eq_default _ _ hj]

theorem sum_map_length_set (bs : List (List Entry)) (i : Nat)
    (c : List Entry) (hi : i < bs.length) :
    ((bs.set i c).map List.length).sum + (bs.getD i []).length
      = (bs.map List.length).sum + c.length := by
  induction bs generalizing i with
  | nil => cases hi
  | cons b rest ih =>
    cases i with
    | zero => simp [List.set]; omega
    | succ n =>
      simp only [List.set, List.map_cons, List.sum_cons, List.getD_cons_succ]
      have := ih n (by simpa using Nat.lt_of_succ_lt_succ hi)
      omega

theorem size_eq_sum (h : Hash) : h.size = (h.buckets.map List.length).sum := by
  unfold Hash.size Hash.entries
  exact List.length_flatten _

theorem size_set (lf : ℚ) (h : Hash) (i : Nat) (c : List Entry)
    (hi : i < h.buckets.length) :
    (Hash.mk lf (h.buckets.set i c)).size + (h.bucket i).length
      = h.size + c.length := by
  rw [size_eq_sum, size_eq_sum]
  exact sum_map_length_set h.buckets i c hi

theorem bucket_count_set (lf : ℚ) (h : Hash) (i : Nat) (c : List Entry) :
    (Hash.mk lf (h.buckets.set i c)).bucket_count = h.bucket_count := by
  unfold Hash.bucket_count
  exact List.length_set h.buckets i c

theorem mem_bucket_lt {h : Hash} {i : Nat} {e : Entry}
    (he : e ∈ h.bucket i) : i < h.bucket_count := by
  by_contra hge
  push_neg at hge
  unfold Hash.bucket at he
  rw [List.getD_eq_default _ _ hge] at he
  cases he

theorem mem_entries_iff {h : Hash} {e : Entry} :
    e ∈ h.entries ↔ ∃ i < h.bucket_count, e ∈ h.bucket i := by
  unfold Hash.entries
  rw [List.mem_flatten]
  constructor
  · rintro ⟨c, hc, hec⟩
    obtain ⟨i, hi, hci⟩ := List.getElem_of_mem hc
    refine ⟨i, hi, ?_⟩
    unfold Hash.bucket
    rw [List.getD_eq_getElem _ _ hi, hci]
    exact hec
  · rintro ⟨i, hi, he⟩
    refine ⟨h.buckets[i], List.getElem_mem hi, ?_⟩
    unfold Hash.bucket at he
    rw [List.getD_eq_getElem _ _ hi] at he
    exact he

/-! Well-formedness: accessors and the facts hash_get draws from it. -/

theorem WF.min_le {h : Hash} (hwf : WF h) :
    MIN_BUCKET_COUNT ≤ h.bucket_count := hwf.1

theorem WF.pow2 {h : Hash} (hwf : WF h) :
    h.bucket_count = 2 ^ Nat.log2 h.bucket_count := hwf.2.1

theorem WF.bidx_mem {h : Hash} (hwf : WF h) {i : Nat} {e : Entry}
    (he : e ∈ h.bucket i) : bidx h e.key = i :=
  hwf.2.2.1 i (mem_bucket_lt he) e he

theorem WF.nodup {h : Hash} (hwf : WF h) (i : Nat) :
    ((h.bucket i).map Entry.key).Nodup := by
  rcases Nat.lt_or_ge i h.bucket_count with hi | hi
  · exact hwf.2.2.2.1 i hi
  · unfold Hash.bucket
    rw [List.getD_eq_default _ _ hi]
    exact List.nodup_nil

theorem WF.load {h : Hash} (hwf : WF h) :
    h.load_factor = (h.size : ℚ) / (h.bucket_count : ℚ) := hwf.2.2.2.2

theorem WF.count_pos {h : Hash} (hwf : WF h) : 0 < h.bucket_count := by
  have := hwf.min_le
  unfold MIN_BUCKET_COUNT at this
  omega

theorem bidx_lt {h : Hash} (hpos : 0 < h.bucket_count) (k : String) :
    bidx h k < h.bucket_count :=
  Nat.mod_lt _ hpos

theorem bidx_congr {h2 h : Hash} (hc : h2.bucket_count = h.bucket_count)
    (k : String) : bidx h2 k = bidx h k := by
  unfold bidx
  rw [hc]

theorem chainRemove_not_found {l : List Entry} {k : String}
    (hf : l.find? (fun x => x.key == k) = none) :
    chainRemove l k = l := by
  induction l with
  | nil => rfl
  | cons x rest ih =>
    rw [List.find?_cons] at hf
    cases hxk : (x.key == k) with
    | true => rw [hxk] at hf; cases hf
    | false =>
      rw [hxk] at hf
      simp only [chainRemove, hxk, Bool.false_eq_true, if_false]
      rw [ih hf]

/-! Entries of a well-formed table versus hash_get. -/

theorem hash_get_of_mem_entries {h : Hash} (hwf : WF h) {e : Entry}
    (he : e ∈ h.entries) : hash_get h e.key = some e.value := by
  obtain ⟨i, hi, hei⟩ := mem_entries_iff.mp he
  have hb : bidx h e.key = i := hwf.bidx_mem hei
  unfold hash_get
  rw [hb, find?_key_mem_nodup (hwf.nodup i) hei]
  rfl

theorem mem_entries_of_hash_get {h : Hash} (hwf : WF h) {k : String} {v : Int}
    (hg : hash_get h k = some v) : (⟨k, v⟩ : Entry) ∈ h.entries := by
  unfold hash_get at hg
  cases hf : (h.bucket (bidx h k)).find? (fun e => e.key == k) with
  | none => rw [hf] at hg; cases hg
  | some e =>
    rw [hf] at hg
    have hek : e.key = k := by
      have := List.find?_some hf
      exact eq_of_beq this
    have hev : e.value = v := by
      simpa using hg
    have hee : e = ⟨k, v⟩ := by
      cases e
      cases hek
      cases hev
      rfl
    rw [← hee]
    exact mem_entries_iff.mpr
      ⟨bidx h k, bidx_lt hwf.count_pos k, List.mem_of_find?_eq_some hf⟩

theorem entries_map_key_nodup {h : Hash} (hwf : WF h) :
    (h.entries.map Entry.key).Nodup := by
  unfold Hash.entries
  rw [List.map_flatten]
  rw [List.nodup_flatten]
  constructor
  · intro l hl
    obtain ⟨c, hc, hcl⟩ := List.mem_map.mp hl
    obtain ⟨i, hi, hci⟩ := List.getElem_of_mem hc
    have : c = h.bucket i := by
      unfold Hash.bucket
      rw [List.getD_eq_getElem _ _ hi, hci]
    rw [← hcl, this]
    exact hwf.nodup i
  · rw [List.pairwise_iff_getElem]
    intro i j hi hj hij
    simp only [List.getElem_map]
    intro s hsi hsj
    obtain ⟨e1, he1, hk1⟩ := List.mem_map.mp hsi
    obtain ⟨e2, he2, hk2⟩ := List.mem_map.mp hsj
    have hb1 : e1 ∈ h.bucket i := by
      unfold Hash.bucket
      rw [List.getD_eq_getElem _ _ (by simpa using hi)]
      exact he1
    have hb2 : e2 ∈ h.bucket j := by
      unfold Hash.bucket
      rw [List.getD_eq_getElem _ _ (by simpa using hj)]
      exact he2
    have hij1 : bidx h e1.key = i := hwf.bidx_mem hb1
    have hij2 : bidx h e2.key = j := hwf.bidx_mem hb2
    rw [hk1, ← hk2] at hij1
    omega

/-! Freshly allocated tables (make_hash output) and power-of-two bucket
counts. -/

theorem bucket_fresh (n i : Nat) :
    (Hash.mk 0 (List.replicate n [])).bucket i = [] := by
  unfold Hash.bucket
  rcases Nat.lt_or_ge i n with hi | hi
  · rw [List.getD_eq_getElem _ _ (by simpa using hi)]
    simp
  · rw [List.getD_eq_default _ _ (by simpa using hi)]

theorem hash_get_fresh (n : Nat) (k : String) :
    hash_get ⟨0, List.replicate n []⟩ k = none := by
  unfold hash_get
  rw [bucket_fresh]
  rfl

theorem size_fresh (n : Nat) : (Hash.mk 0 (List.replicate n [])).size = 0 := by
  rw [size_eq_sum]
  simp

theorem count_fresh (n : Nat) :
    (Hash.mk 0 (List.replicate n [])).bucket_count = n := by
  unfold Hash.bucket_count
  simp

theorem WF_fresh (n : Nat) (h32 : MIN_BUCKET_COUNT ≤ n)
    (hp : n = 2 ^ Nat.log2 n) : WF ⟨0, List.replicate n []⟩ := by
  refine ⟨?_, ?_, ?_, ?_, ?_⟩
  · rw [count_fresh]; exact h32
  · rw [count_fresh]; exact hp
  · intro i hi e he
    rw [bucket_fresh] at he
    cases he
  · intro i hi
    rw [bucket_fresh]
    exact List.nodup_nil
  · rw [count_fresh, size_fresh]
    simp

theorem log2_two_pow (m : Nat) : Nat.log2 (2 ^ m) = m := by
  rw [Nat.log2_eq_log_two]
  exact Nat.log_pow Nat.one_lt_two m

theorem pow2_double {n : Nat} (hp : n = 2 ^ Nat.log2 n) :
    n * 2 = 2 ^ Nat.log2 (n * 2) := by
  rw [hp, ← pow_succ, log2_two_pow]

theorem pow2_half {n : Nat} (hp : n = 2 ^ Nat.log2 n)
    (h32 : MIN_BUCKET_COUNT < n) :
    MIN_BUCKET_COUNT ≤ n / 2 ∧ n / 2 = 2 ^ Nat.log2 (n / 2) := by
  have hm6 : 6 ≤ Nat.log2 n := by
    by_contra hlt
    push_neg at hlt
    have hle : n ≤ 32 := by
      rw [hp]
      calc 2 ^ Nat.log2 n ≤ 2 ^ 5 := Nat.pow_le_pow_right (by omega) (by omega)
        _ = 32 := by norm_num
    unfold MIN_BUCKET_COUNT at h32
    omega
  have hdiv : n / 2 = 2 ^ (Nat.log2 n - 1) := by
    conv_lhs => rw [hp]
    cases hm : Nat.log2 n with
    | zero => omega
    | succ m0 =>
      rw [pow_succ]
      simp [Nat.mul_div_cancel]
  constructor
  · rw [hdiv]
    unfold MIN_BUCKET_COUNT
    calc (32 : Nat) = 2 ^ 5 := by norm_num
      _ ≤ 2 ^ (Nat.log2 n - 1) := Nat.pow_le_pow_right (by omega) (by omega)
  · rw [hdiv, log2_two_pow]

/-! hash_iterate is the fold over the entry list. -/

theorem foldl_buckets {α : Type _} (f : String → Int → α → α) :
    ∀ (bs : List (List Entry)) (c : α),
      bs.foldl (fun ctx chain => chain.foldl (fun ctx e => f e.key e.value ctx) ctx) c
        = bs.flatten.foldl (fun ctx e => f e.key e.value ctx) c := by
  intro bs
  induction bs with
  | nil => intro c; rfl
  | cons b rest ih =>
    intro c
    rw [List.flatten_cons, List.foldl_append, List.foldl_cons]
    exact ih _

theorem hash_iterate_eq {α : Type _} (h : Hash) (f : String → Int → α → α)
    (c : α) :
    hash_iterate h f c
      = h.entries.foldl (fun ctx e => f e.key e.value ctx) c := by
  unfold hash_iterate Hash.entries
  exact foldl_buckets f h.buckets c

theorem make_entry_some {k : String} {v : Int} {a : List Bool} {e : Entry}
    {a2 : List Bool} (h : make_entry k v a = (some e, a2)) : e = ⟨k, v⟩ := by
  unfold make_entry at h
  split at h
  · simp at h
  · split at h
    · simp at h
    · simp only [Prod.mk.injEq, Option.some.injEq] at h
      exact h.1.symm

theorem try_set_nil (h : Hash) (k : String) (v : Int) :
    ∃ h2, try_set h k v [] = (some h2, []) := by
  simp only [try_set]
  cases hf : (h.bucket (bidx h k)).find? (fun e => e.key == k) with
  | some e => exact ⟨_, rfl⟩
  | none => exact ⟨_, rfl⟩

/-! The behaviour of try_set on a well-formed table. -/

theorem bucket_mk_set_self {h : Hash} (lf : ℚ) (c : List Entry) {i : Nat}
    (hi : i < h.bucket_count) :
    (Hash.mk lf (h.buckets.set i c)).bucket i = c := by
  unfold Hash.bucket
  exact bucket_set_self hi

theorem bucket_mk_set_ne {h : Hash} (lf : ℚ) (c : List Entry) {i j : Nat}
    (hne : i ≠ j) :
    (Hash.mk lf (h.buckets.set i c)).bucket j = h.bucket j := by
  unfold Hash.bucket
  exact bucket_set_ne hne

theorem hash_get_none_iff {h : Hash} {k : String} :
    hash_get h k = none
      ↔ (h.bucket (bidx h k)).find? (fun x => x.key == k) = none := by
  unfold hash_get
  exact Option.map_eq_none'

theorem try_set_cases {h : Hash} {k : String} {v : Int} {a : List Bool}
    {h2 : Hash} {a2 : List Bool} (heq : try_set h k v a = (some h2, a2)) :
    (∃ e, (h.bucket (bidx h k)).find? (fun x => x.key == k) = some e ∧
      h2 = updTable h k v ∧ a2 = a) ∨
    ((h.bucket (bidx h k)).find? (fun x => x.key == k) = none ∧
      h2 = insTable h k v) := by
  simp only [try_set] at heq
  cases hf : (h.bucket (bidx h k)).find? (fun x => x.key == k) with
  | some e =>
    rw [hf] at heq
    left
    injection heq with ha hb
    injection ha with ha
    exact ⟨e, rfl, ha.symm, hb.symm⟩
  | none =>
    rw [hf] at heq
    right
    refine ⟨rfl, ?_⟩
    rcases hme : make_entry k v a with ⟨me, a3⟩
    rw [hme] at heq
    cases me with
    | none => simp at heq
    | some e =>
      have he : e = ⟨k, v⟩ := make_entry_some hme
      subst he
      injection heq with ha hb
      injection ha with ha
      exact ha.symm

theorem try_set_found {h : Hash} (hwf : WF h) {k : String} {v : Int}
    {e : Entry}
    (hf : (h.bucket (bidx h k)).find? (fun x => x.key == k) = some e) :
    WF (updTable h k v) ∧
    (updTable h k v).bucket_count = h.bucket_count ∧
    (updTable h k v).size = h.size ∧
    (updTable h k v).load_factor = h.load_factor ∧
    hash_get (updTable h k v) k = some v ∧
    (∀ k2, k2 ≠ k → hash_get (updTable h k v) k2 = hash_get h k2) := by
  have hpos := hwf.count_pos
  have hi : bidx h k < h.bucket_count := bidx_lt hpos k
  have hcount : (updTable h k v).bucket_count = h.bucket_count := by
    unfold updTable
    exact bucket_count_set _ _ _ _
  have hbs : (updTable h k v).bucket (bidx h k)
      = chainUpdate (h.bucket (bidx h k)) k v := by
    unfold updTable
    exact bucket_mk_set_self _ _ hi
  have hbn : ∀ j, bidx h k ≠ j → (updTable h k v).bucket j = h.bucket j := by
    intro j hne
    unfold updTable
    exact bucket_mk_set_ne _ _ hne
  have hbidx2 : ∀ k2, bidx (updTable h k v) k2 = bidx h k2 := bidx_congr hcount
  have hsize : (updTable h k v).size = h.size := by
    have hss := size_set h.load_factor h (bidx h k)
      (chainUpdate (h.bucket (bidx h k)) k v) hi
    rw [chainUpdate_length] at hss
    unfold updTable
    omega
  have hload : (updTable h k v).load_factor = h.load_factor := rfl
  have hget : hash_get (updTable h k v) k = some v := by
    unfold hash_get
    rw [hbidx2, hbs, find?_chainUpdate_self hf]
    rfl
  have hframe : ∀ k2, k2 ≠ k →
      hash_get (updTable h k v) k2 = hash_get h k2 := by
    intro k2 hne
    unfold hash_get
    rw [hbidx2]
    rcases eq_or_ne (bidx h k) (bidx h k2) with hbe | hbne
    · rw [← hbe, hbs, find?_chainUpdate_ne hne]
    · rw [hbn _ hbne]
  refine ⟨⟨?_, ?_, ?_, ?_, ?_⟩, hcount, hsize, hload, hget, hframe⟩
  · rw [hcount]; exact hwf.1
  · rw [hcount]; exact hwf.pow2
  · intro j hj e2 he2
    rw [hbidx2]
    rcases eq_or_ne (bidx h k) j with rfl | hbne
    · rw [hbs] at he2
      have hkmem : e2.key ∈ (chainUpdate (h.bucket (bidx h k)) k v).map
          Entry.key := List.mem_map_of_mem _ he2
      rw [chainUpdate_map_key] at hkmem
      obtain ⟨e3, he3, hke⟩ := List.mem_map.mp hkmem
      rw [← hke]
      exact hwf.bidx_mem he3
    · rw [hbn _ hbne] at he2
      exact hwf.bidx_mem he2
  · intro j hj
    rcases eq_or_ne (bidx h k) j with rfl | hbne
    · rw [hbs, chainUpdate_map_key]
      exact hwf.nodup _
    · rw [hbn _ hbne]
      exact hwf.nodup _
  · rw [hload, hsize, hcount]
    exact hwf.load

theorem try_set_inserted {h : Hash} (hwf : WF h) {k : String} {v : Int}
    (hf : (h.bucket (bidx h k)).find? (fun x => x.key == k) = none) :
    WF (insTable h k v) ∧
    (insTable h k v).bucket_count = h.bucket_count ∧
    (insTable h k v).size = h.size + 1 ∧
    (insTable h k v).load_factor
      = h.load_factor + 1 / (h.bucket_count : ℚ) ∧
    hash_get (insTable h k v) k = some v ∧
    (∀ k2, k2 ≠ k → hash_get (insTable h k v) k2 = hash_get h k2) := by
  have hpos := hwf.count_pos
  have hi : bidx h k < h.bucket_count := bidx_lt hpos k
  have hcount : (insTable h k v).bucket_count = h.bucket_count := by
    unfold insTable
    exact bucket_count_set _ _ _ _
  have hbs : (insTable h k v).bucket (bidx h k)
      = ⟨k, v⟩ :: h.bucket (bidx h k) := by
    unfold insTable
    exact bucket_mk_set_self _ _ hi
  have hbn : ∀ j, bidx h k ≠ j → (insTable h k v).bucket j = h.bucket j := by
    intro j hne
    unfold insTable
    exact bucket_mk_set_ne _ _ hne
  have hbidx2 : ∀ k2, bidx (insTable h k v) k2 = bidx h k2 := bidx_congr hcount
  have hsize : (insTable h k v).size = h.size + 1 := by
    have hss := size_set (h.load_factor + 1 / (h.bucket_count : ℚ)) h
      (bidx h k) (⟨k, v⟩ :: h.bucket (bidx h k)) hi
    rw [List.length_cons] at hss
    unfold insTable
    omega
  have hload : (insTable h k v).load_factor
      = h.load_factor + 1 / (h.bucket_count : ℚ) := rfl
  have habsent : ∀ e2 ∈ h.bucket (bidx h k), e2.key ≠ k :=
    find?_key_none.mp hf
  have hget : hash_get (insTable h k v) k = some v := by
    unfold hash_get
    rw [hbidx2, hbs, List.find?_cons]
    simp
  have hframe : ∀ k2, k2 ≠ k →
      hash_get (insTable h k v) k2 = hash_get h k2 := by
    intro k2 hne
    unfold hash_get
    rw [hbidx2]
    rcases eq_or_ne (bidx h k) (bidx h k2) with hbe | hbne
    · rw [← hbe, hbs, List.find?_cons]
      have : ((⟨k, v⟩ : Entry).key == k2) = false := by
        rw [beq_eq_false_iff_ne]
        exact fun hc => hne hc.symm
      rw [this]
    · rw [hbn _ hbne]
  refine ⟨⟨?_, ?_, ?_, ?_, ?_⟩, hcount, hsize, hload, hget, hframe⟩
  · rw [hcount]; exact hwf.1
  · rw [hcount]; exact hwf.pow2
  · intro j hj e2 he2
    rw [hbidx2]
    rcases eq_or_ne (bidx h k) j with rfl | hbne
    · rw [hbs] at he2
      rcases List.mem_cons.mp he2 with rfl | he2
      · rfl
      · exact hwf.bidx_mem he2
    · rw [hbn _ hbne] at he2
      exact hwf.bidx_mem he2
  · intro j hj
    rcases eq_or_ne (bidx h k) j with rfl | hbne
    · rw [hbs, List.map_cons, List.nodup_cons]
      refine ⟨?_, hwf.nodup _⟩
      intro hkmem
      obtain ⟨e2, he2, hke⟩ := List.mem_map.mp hkmem
      exact habsent e2 he2 hke
    · rw [hbn _ hbne]
      exact hwf.nodup _
  · rw [hload, hsize, hcount, hwf.load]
    have hcast : ((h.size + 1 : Nat) : ℚ) = (h.size : ℚ) + 1 := by
      push_cast
      ring
    rw [hcast, ← div_add_div_same]

theorem try_set_spec {h : Hash} (hwf : WF h) {k : String} {v : Int}
    {a : List Bool} {h2 : Hash} {a2 : List Bool}
    (heq : try_set h k v a = (some h2, a2)) :
    WF h2 ∧ h2.bucket_count = h.bucket_count ∧ hash_get h2 k = some v ∧
    (∀ k2, k2 ≠ k → hash_get h2 k2 = hash_get h k2) ∧
    (hash_get h k = none → h2.size = h.size + 1 ∧
      h2.load_factor = h.load_factor + 1 / (h.bucket_count : ℚ)) ∧
    (hash_get h k ≠ none → h2.size = h.size ∧
      h2.load_factor = h.load_factor ∧ a2 = a) := by
  rcases try_set_cases heq with ⟨e, hf, rfl, rfl⟩ | ⟨hf, rfl⟩
  · obtain ⟨hwf2, hcount, hsize, hload, hget, hframe⟩ :=
      try_set_found hwf (v := v) hf
    refine ⟨hwf2, hcount, hget, hframe, ?_, ?_⟩
    · intro hnone
      rw [hash_get_none_iff] at hnone
      rw [hnone] at hf
      cases hf
    · intro _
      exact ⟨hsize, hload, rfl⟩
  · obtain ⟨hwf2, hcount, hsize, hload, hget, hframe⟩ :=
      try_set_inserted hwf (v := v) hf
    refine ⟨hwf2, hcount, hget, hframe, ?_, ?_⟩
    · intro _
      exact ⟨hsize, hload⟩
    · intro hne
      exact absurd (hash_get_none_iff.mpr hf) hne

/-! The re-insertion pass: folding resize_callback over a list of entries
with pairwise-distinct keys, all absent from the target table. -/

theorem insList_false (t : Hash) (a : List Bool) (L : List Entry) :
    insList ⟨false, t, a⟩ L = ⟨false, t, a⟩ := by
  induction L with
  | nil => rfl
  | cons e rest ih =>
    simp only [insList, List.foldl_cons]
    exact ih

theorem insList_cons (e : Entry) (L : List Entry) (st : resize_ctx) :
    insList st (e :: L) = insList (resize_callback e.key e.value st) L := rfl

theorem insList_spec :
    ∀ (L : List Entry) (t : Hash) (a : List Bool), WF t →
      (L.map Entry.key).Nodup → (∀ e ∈ L, hash_get t e.key = none) →
      ∀ t2 a2, insList ⟨true, t, a⟩ L = ⟨true, t2, a2⟩ →
      WF t2 ∧ t2.bucket_count = t.bucket_count ∧
      t2.size = t.size + L.length ∧
      (∀ e ∈ L, hash_get t2 e.key = some e.value) ∧
      (∀ k, (∀ e ∈ L, e.key ≠ k) → hash_get t2 k = hash_get t k) := by
  intro L
  induction L with
  | nil =>
    intro t a hwf hnd habs t2 a2 heq
    injection heq with h1 h2 h3
    subst h2
    exact ⟨hwf, rfl, by simp, by simp, fun k _ => rfl⟩
  | cons e rest ih =>
    intro t a hwf hnd habs t2 a2 heq
    rw [insList_cons] at heq
    rcases hts : try_set t e.key e.value a with ⟨ots, a3⟩
    cases ots with
    | none =>
      rw [show resize_callback e.key e.value ⟨true, t, a⟩ = ⟨false, t, a3⟩
        from by simp [resize_callback, hts]] at heq
      rw [insList_false] at heq
      injection heq with h1 _ _
      cases h1
    | some t1 =>
      rw [show resize_callback e.key e.value ⟨true, t, a⟩ = ⟨true, t1, a3⟩
        from by simp [resize_callback, hts]] at heq
      have habs_e : hash_get t e.key = none := habs e (List.mem_cons_self e rest)
      obtain ⟨hwf1, hcount1, hget1, hframe1, hnone1, _⟩ := try_set_spec hwf hts
      obtain ⟨hsize1, hload1⟩ := hnone1 habs_e
      simp only [List.map_cons, List.nodup_cons] at hnd
      have habs_rest : ∀ e2 ∈ rest, hash_get t1 e2.key = none := by
        intro e2 he2
        have hne : e2.key ≠ e.key := by
          intro hc
          exact hnd.1 (hc ▸ List.mem_map_of_mem Entry.key he2)
        rw [hframe1 e2.key hne]
        exact habs e2 (List.mem_cons_of_mem e he2)
      obtain ⟨hwf2, hcount2, hsize2, hget2, hframe2⟩ :=
        ih t1 a3 hwf1 hnd.2 habs_rest t2 a2 heq
      refine ⟨hwf2, ?_, ?_, ?_, ?_⟩
      · rw [hcount2, hcount1]
      · rw [hsize2, hsize1, List.length_cons]
        omega
      · intro e2 he2
        rcases List.mem_cons.mp he2 with rfl | he2
        · rw [hframe2 e2.key (fun e3 he3 hc => hnd.1 (hc ▸
            List.mem_map_of_mem Entry.key he3))]
          exact hget1
        · exact hget2 e2 he2
      · intro k hk
        rw [hframe2 k (fun e2 he2 => hk e2 (List.mem_cons_of_mem e he2))]
        exact hframe1 k (fun hc => hk e (List.mem_cons_self e rest) hc.symm)

/-! try_resize on a well-formed table: when it succeeds, the new table is
well-formed at the requested bucket count and stores exactly the same
key/value pairs. -/

theorem try_resize_spec {h : Hash} (hwf : WF h) {n : Nat}
    (h32 : MIN_BUCKET_COUNT ≤ n) (hp : n = 2 ^ Nat.log2 n)
    {a : List Bool} {h2 : Hash} {a2 : List Bool}
    (heq : try_resize h n a = (some h2, a2)) :
    WF h2 ∧ h2.bucket_count = n ∧ h2.size = h.size ∧
    (∀ k, hash_get h2 k = hash_get h k) := by
  simp only [try_resize] at heq
  split at heq
  · simp at heq
  rename_i fresh a1 hmk
  have hfresh : fresh = ⟨0, List.replicate n []⟩ := by
    unfold make_hash at hmk
    split at hmk
    · simp at hmk
    · simp only [Prod.mk.injEq, Option.some.injEq] at hmk
      exact hmk.1.symm
  subst hfresh
  have hit : hash_iterate h resize_callback
      (⟨true, ⟨0, List.replicate n []⟩, a1⟩ : resize_ctx)
      = insList ⟨true, ⟨0, List.replicate n []⟩, a1⟩ h.entries := by
    rw [hash_iterate_eq]
    rfl
  rw [hit] at heq
  rcases hins : insList ⟨true, ⟨0, List.replicate n []⟩, a1⟩ h.entries
    with ⟨succ, t2, a3⟩
  rw [hins] at heq
  cases succ with
  | false => simp at heq
  | true =>
    simp only [Option.some.injEq, Prod.mk.injEq, if_true] at heq
    obtain ⟨ha, hb⟩ := heq
    subst ha
    subst hb
    have hwff : WF ⟨0, List.replicate n []⟩ := WF_fresh n h32 hp
    obtain ⟨hwf2, hcount2, hsize2, hget2, hframe2⟩ :=
      insList_spec h.entries ⟨0, List.replicate n []⟩ a1 hwff
        (entries_map_key_nodup hwf)
        (fun e _ => hash_get_fresh n e.key) t2 a3 hins
    refine ⟨hwf2, ?_, ?_, ?_⟩
    · rw [hcount2, count_fresh]
    · rw [hsize2, size_fresh]
      simp [Hash.size]
    · intro k
      cases hg : hash_get h k with
      | some v =>
        have hmem := mem_entries_of_hash_get hwf hg
        exact hget2 ⟨k, v⟩ hmem
      | none =>
        rw [hframe2 k ?_, hash_get_fresh]
        intro e he hc
        have := hash_get_of_mem_entries hwf he
        rw [hc, hg] at this
        cases this

/-! hash_set: structural insert, then grow if the threshold is exceeded. -/

theorem hash_set_spec {h : Hash} (hwf : WF h) {k : String} {v : Int}
    {a : List Bool} {h2 : Hash} {a2 : List Bool}
    (heq : hash_set h k v a = (some h2, a2)) :
    WF h2 ∧ hash_get h2 k = some v ∧
    (∀ k2, k2 ≠ k → hash_get h2 k2 = hash_get h k2) ∧
    (h2.bucket_count = h.bucket_count
      ∨ h2.bucket_count = h.bucket_count * 2) := by
  simp only [hash_set] at heq
  split at heq
  · simp at heq
  rename_i h1 a1 hts
  obtain ⟨hwf1, hcount1, hget1, hframe1, _, _⟩ := try_set_spec hwf hts
  by_cases hgrow : GROW_THRESHOLD < h1.load_factor
  · rw [if_pos hgrow] at heq
    split at heq
    · rename_i a3 hres
      simp only [Option.some.injEq, Prod.mk.injEq] at heq
      obtain ⟨rfl, rfl⟩ := heq
      exact ⟨hwf1, hget1, hframe1, Or.inl hcount1⟩
    · rename_i h3 a3 hres
      have h2c : MIN_BUCKET_COUNT ≤ h1.bucket_count * 2 := by
        have := hwf1.min_le
        omega
      have hp2 : h1.bucket_count * 2 = 2 ^ Nat.log2 (h1.bucket_count * 2) :=
        pow2_double hwf1.pow2
      obtain ⟨hwf3, hcount3, hsize3, hframe3⟩ :=
        try_resize_spec hwf1 h2c hp2 hres
      simp only [Option.some.injEq, Prod.mk.injEq] at heq
      obtain ⟨rfl, rfl⟩ := heq
      refine ⟨hwf3, ?_, ?_, Or.inr ?_⟩
      · rw [hframe3]
        exact hget1
      · intro k2 hne
        rw [hframe3, hframe1 k2 hne]
      · rw [hcount3, hcount1]
  · rw [if_neg hgrow] at heq
    simp only [Option.some.injEq, Prod.mk.injEq] at heq
    obtain ⟨rfl, rfl⟩ := heq
    exact ⟨hwf1, hget1, hframe1, Or.inl hcount1⟩

/-! hash_remove: structural unlink, then shrink if the table is sparse. -/

theorem hash_unlink_eq_found {h : Hash} {k : String} {e : Entry}
    (hf : (h.bucket (bidx h k)).find? (fun x => x.key == k) = some e) :
    hash_unlink h k = remTable h k := by
  simp only [hash_unlink]
  rw [hf]
  rfl

theorem hash_unlink_eq_absent {h : Hash} {k : String}
    (hf : (h.bucket (bidx h k)).find? (fun x => x.key == k) = none) :
    hash_unlink h k = h := by
  simp only [hash_unlink]
  rw [hf]

theorem remTable_spec {h : Hash} (hwf : WF h) {k : String} {e : Entry}
    (hf : (h.bucket (bidx h k)).find? (fun x => x.key == k) = some e) :
    WF (remTable h k) ∧ (remTable h k).bucket_count = h.bucket_count ∧
    (remTable h k).size + 1 = h.size ∧
    (remTable h k).load_factor = h.load_factor - 1 / (h.bucket_count : ℚ) ∧
    hash_get (remTable h k) k = none ∧
    (∀ k2, k2 ≠ k → hash_get (remTable h k) k2 = hash_get h k2) := by
  have hpos := hwf.count_pos
  have hi : bidx h k < h.bucket_count := bidx_lt hpos k
  have hcount : (remTable h k).bucket_count = h.bucket_count := by
    unfold remTable
    exact bucket_count_set _ _ _ _
  have hbs : (remTable h k).bucket (bidx h k)
      = chainRemove (h.bucket (bidx h k)) k := by
    unfold remTable
    exact bucket_mk_set_self _ _ hi
  have hbn : ∀ j, bidx h k ≠ j → (remTable h k).bucket j = h.bucket j := by
    intro j hne
    unfold remTable
    exact bucket_mk_set_ne _ _ hne
  have hbidx2 : ∀ k2, bidx (remTable h k) k2 = bidx h k2 := bidx_congr hcount
  have hsize : (remTable h k).size + 1 = h.size := by
    have hss := size_set (h.load_factor - 1 / (h.bucket_count : ℚ)) h
      (bidx h k) (chainRemove (h.bucket (bidx h k)) k) hi
    have hlen := chainRemove_length_found hf
    unfold remTable
    omega
  have hload : (remTable h k).load_factor
      = h.load_factor - 1 / (h.bucket_count : ℚ) := rfl
  have hget : hash_get (remTable h k) k = none := by
    unfold hash_get
    rw [hbidx2, hbs, find?_chainRemove_self (hwf.nodup _)]
    rfl
  have hframe : ∀ k2, k2 ≠ k →
      hash_get (remTable h k) k2 = hash_get h k2 := by
    intro k2 hne
    unfold hash_get
    rw [hbidx2]
    rcases eq_or_ne (bidx h k) (bidx h k2) with hbe | hbne
    · rw [← hbe, hbs, find?_chainRemove_ne hne]
    · rw [hbn _ hbne]
  refine ⟨⟨?_, ?_, ?_, ?_, ?_⟩, hcount, hsize, hload, hget, hframe⟩
  · rw [hcount]; exact hwf.1
  · rw [hcount]; exact hwf.pow2
  · intro j hj e2 he2
    rw [hbidx2]
    rcases eq_or_ne (bidx h k) j with rfl | hbne
    · rw [hbs] at he2
      exact hwf.bidx_mem ((chainRemove_sublist _ _).subset he2)
    · rw [hbn _ hbne] at he2
      exact hwf.bidx_mem he2
  · intro j hj
    rcases eq_or_ne (bidx h k) j with rfl | hbne
    · rw [hbs]
      exact chainRemove_map_key_nodup (hwf.nodup _)
    · rw [hbn _ hbne]
      exact hwf.nodup _
  · rw [hload, hcount, hwf.load]
    have hcast : (h.size : ℚ) = ((remTable h k).size : ℚ) + 1 := by
      rw [← hsize]
      push_cast
      ring
    rw [hcast, add_div]
    ring

theorem hash_unlink_spec {h : Hash} (hwf : WF h) (k : String) :
    WF (hash_unlink h k) ∧
    (hash_unlink h k).bucket_count = h.bucket_count ∧
    hash_get (hash_unlink h k) k = none ∧
    (∀ k2, k2 ≠ k → hash_get (hash_unlink h k) k2 = hash_get h k2) := by
  cases hf : (h.bucket (bidx h k)).find? (fun x => x.key == k) with
  | none =>
    rw [hash_unlink_eq_absent hf]
    exact ⟨hwf, rfl, hash_get_none_iff.mpr hf, fun _ _ => rfl⟩
  | some e =>
    rw [hash_unlink_eq_found hf]
    obtain ⟨hwfr, hcr, _, _, hgr, hfr⟩ := remTable_spec hwf hf
    exact ⟨hwfr, hcr, hgr, hfr⟩

theorem hash_remove_spec {h : Hash} (hwf : WF h) (k : String) (a : List Bool)
    {h2 : Hash} {a2 : List Bool} (heq : hash_remove h k a = (h2, a2)) :
    WF h2 ∧ hash_get h2 k = none ∧
    (∀ k2, k2 ≠ k → hash_get h2 k2 = hash_get h k2) ∧
    (h2.bucket_count = h.bucket_count
      ∨ h2.bucket_count = h.bucket_count / 2) := by
  obtain ⟨hwf1, hcount1, hget1, hframe1⟩ := hash_unlink_spec hwf k
  simp only [hash_remove] at heq
  split at heq
  · rename_i hcond
    split at heq
    · rename_i a3 hres
      simp only [Prod.mk.injEq] at heq
      obtain ⟨rfl, rfl⟩ := heq
      exact ⟨hwf1, hget1, hframe1, Or.inl hcount1⟩
    · rename_i h3 a3 hres
      obtain ⟨hge, hp⟩ := pow2_half hwf1.pow2 hcond.2
      obtain ⟨hwf3, hcount3, hsize3, hframe3⟩ :=
        try_resize_spec hwf1 hge hp hres
      simp only [Prod.mk.injEq] at heq
      obtain ⟨rfl, rfl⟩ := heq
      refine ⟨hwf3, ?_, ?_, Or.inr ?_⟩
      · rw [hframe3]
        exact hget1
      · intro k2 hne
        rw [hframe3, hframe1 k2 hne]
      · rw [hcount3, hcount1]
  · simp only [Prod.mk.injEq] at heq
    obtain ⟨rfl, rfl⟩ := heq
    exact ⟨hwf1, hget1, hframe1, Or.inl hcount1⟩

/-! Reachable tables are well-formed. -/

theorem reachable_wf : ∀ {h : Hash}, Reachable h → WF h := by
  intro h hr
  induction hr with
  | new a h2 rest heq =>
    have hh2 : h2 = ⟨0, List.replicate MIN_BUCKET_COUNT []⟩ := by
      unfold hash_new make_hash at heq
      split at heq
      · simp at heq
      · simp only [Prod.mk.injEq, Option.some.injEq] at heq
        exact heq.1.symm
    rw [hh2]
    refine WF_fresh _ (le_refl _) ?_
    have h5 : MIN_BUCKET_COUNT = 2 ^ 5 := by
      unfold MIN_BUCKET_COUNT
      norm_num
    rw [h5, log2_two_pow]
  | set h1 k v a h2 rest hr1 heq ih => exact (hash_set_spec ih heq).1
  | rem h1 k a h2 rest hr1 heq ih => exact (hash_remove_spec ih k a heq).1

/-! With the empty allocation oracle every allocation succeeds: hash_set
always returns a table, and resizes always succeed. -/

theorem insList_nil_oracle :
    ∀ (L : List Entry) (t : Hash),
      ∃ t2, insList ⟨true, t, []⟩ L = ⟨true, t2, []⟩ := by
  intro L
  induction L with
  | nil => exact fun t => ⟨t, rfl⟩
  | cons e rest ih =>
    intro t
    obtain ⟨t1, hts⟩ := try_set_nil t e.key e.value
    rw [insList_cons, show resize_callback e.key e.value ⟨true, t, []⟩
      = ⟨true, t1, []⟩ from by simp [resize_callback, hts]]
    exact ih t1

theorem try_resize_nil (h : Hash) (n : Nat) :
    ∃ h2, try_resize h n [] = (some h2, []) := by
  obtain ⟨t2, hins⟩ := insList_nil_oracle h.entries ⟨0, List.replicate n []⟩
  have hit : hash_iterate h resize_callback
      (⟨true, ⟨0, List.replicate n []⟩, []⟩ : resize_ctx)
      = insList ⟨true, ⟨0, List.replicate n []⟩, []⟩ h.entries := by
    rw [hash_iterate_eq]
    rfl
  refine ⟨t2, ?_⟩
  simp only [try_resize, make_hash, allocOne]
  rw [hit, hins]
  rfl

theorem hash_set_nil (h : Hash) (k : String) (v : Int) :
    ∃ h2, hash_set h k v [] = (some h2, []) := by
  obtain ⟨h1, hts⟩ := try_set_nil h k v
  by_cases hgrow : GROW_THRESHOLD < h1.load_factor
  · obtain ⟨h3, hres⟩ := try_resize_nil h1 (h1.bucket_count * 2)
    refine ⟨h3, ?_⟩
    simp only [hash_set, hts, hgrow, if_true, hres]
  · refine ⟨h1, ?_⟩
    simp only [hash_set, hts, hgrow, if_false]

/-! Folding hash_set over a list of distinct keys. -/

theorem setAll_cons (t : Hash) (kv : String × Int)
    (rest : List (String × Int)) :
    setAll t (kv :: rest)
      = setAll (((hash_set t kv.1 kv.2 []).1).getD t) rest := rfl

theorem setAll_get : ∀ (ks : List (String × Int)) (t : Hash), WF t →
    (ks.map Prod.fst).Nodup →
    WF (setAll t ks) ∧
    (∀ kv ∈ ks, hash_get (setAll t ks) kv.1 = some kv.2) ∧
    (∀ k, (∀ kv ∈ ks, kv.1 ≠ k) → hash_get (setAll t ks) k = hash_get t k) := by
  intro ks
  induction ks with
  | nil =>
    intro t hwf hnd
    exact ⟨hwf, by simp, fun k _ => rfl⟩
  | cons kv rest ih =>
    intro t hwf hnd
    obtain ⟨h1, hset⟩ := hash_set_nil t kv.1 kv.2
    have hstep : setAll t (kv :: rest) = setAll h1 rest := by
      rw [setAll_cons, hset]
      rfl
    obtain ⟨hwf1, hget1, hframe1, _⟩ := hash_set_spec hwf hset
    simp only [List.map_cons, List.nodup_cons] at hnd
    obtain ⟨hwf2, hget2, hframe2⟩ := ih h1 hwf1 hnd.2
    rw [hstep]
    refine ⟨hwf2, ?_, ?_⟩
    · intro kv2 hkv2
      rcases List.mem_cons.mp hkv2 with rfl | hmem
      · rw [hframe2 kv2.1 (fun kv3 hkv3 hc => hnd.1 (hc ▸
          List.mem_map_of_mem Prod.fst hkv3))]
        exact hget1
      · exact hget2 kv2 hmem
    · intro k hk
      rw [hframe2 k (fun kv2 hkv2 => hk kv2 (List.mem_cons_of_mem kv hkv2))]
      exact hframe1 k (Ne.symm (hk kv (List.mem_cons_self kv rest)))

theorem reachable_setAll : ∀ (ks : List (String × Int)) {t : Hash},
    Reachable t → Reachable (setAll t ks) := by
  intro ks
  induction ks with
  | nil => exact fun hr => hr
  | cons kv rest ih =>
    intro t hr
    obtain ⟨h1, hset⟩ := hash_set_nil t kv.1 kv.2
    rw [setAll_cons, hset]
    show Reachable (setAll h1 rest)
    exact ih (Reachable.set t kv.1 kv.2 [] h1 [] hr hset)

theorem reachable_removeAll : ∀ (ks : List String) {t : Hash},
    Reachable t → Reachable (removeAll t ks) := by
  intro ks
  induction ks with
  | nil => exact fun hr => hr
  | cons k rest ih =>
    intro t hr
    show Reachable (removeAll (hash_remove t k [false]).1 rest)
    exact ih (Reachable.rem t k [false] _ _ hr rfl)

theorem reachable_emptyTable : Reachable emptyTable :=
  Reachable.new [] emptyTable [] rfl

theorem try_set_eq_found {h : Hash} {k : String} {e : Entry} (v : Int)
    (a : List Bool)
    (hf : (h.bucket (bidx h k)).find? (fun x => x.key == k) = some e) :
    try_set h k v a = (some (updTable h k v), a) := by
  simp only [try_set]
  rw [hf]
  rfl

theorem hash_get_some_find {h : Hash} {k : String} {w : Int}
    (hg : hash_get h k = some w) :
    ∃ e, (h.bucket (bidx h k)).find? (fun x => x.key == k) = some e := by
  cases hf : (h.bucket (bidx h k)).find? (fun x => x.key == k) with
  | none =>
    rw [hash_get_none_iff.mpr hf] at hg
    cases hg
  | some e => exact ⟨e, rfl⟩

theorem countP_key_eq_one {l : List Entry} {k : String}
    (hnd : (l.map Entry.key).Nodup) (hmem : ∃ e ∈ l, e.key = k) :
    l.countP (fun e => e.key == k) = 1 := by
  induction l with
  | nil =>
    obtain ⟨e, he, _⟩ := hmem
    cases he
  | cons x rest ih =>
    simp only [List.map_cons, List.nodup_cons] at hnd
    rw [List.countP_cons]
    obtain ⟨e, he, hek⟩ := hmem
    rcases List.mem_cons.mp he with rfl | hmem2
    · have h0 : rest.countP (fun e2 => e2.key == k) = 0 := by
        rw [List.countP_eq_zero]
        intro e2 he2 hp
        have : e2.key = e.key := (eq_of_beq hp).trans hek.symm
        exact hnd.1 (this ▸ List.mem_map_of_mem Entry.key he2)
      rw [h0]
      simp [hek]
    · have hp : (x.key == k) = false := by
        rw [beq_eq_false_iff_ne]
        intro hc
        have : x.key = e.key := hc.trans hek.symm
        exact hnd.1 (this ▸ List.mem_map_of_mem Entry.key hmem2)
      rw [hp]
      simp only [Bool.false_eq_true, if_false, Nat.add_zero]
      exact ih hnd.2 ⟨e, hmem2, hek⟩

/-- C1: a key inserted with value v via hash_set is subsequently found by
hash_get, which reports found and yields v; the lookup of a key is
unchanged by hash_set of a different key and by hash_remove of a different
key, across any grow or shrink resizes those calls trigger; in particular
after inserting the 100 distinct keys "0".."99" into a fresh table of
minimum bucket count 32, every one is found with its correct value. -/
theorem C1_insert_then_lookup :
    (∀ h k v a h2 a2, WF h → hash_set h k v a = (some h2, a2) →
      hash_get h2 k = some v) ∧
    (∀ h k k2 v a h2 a2, WF h → k2 ≠ k →
      hash_set h k2 v a = (some h2, a2) → hash_get h2 k = hash_get h k) ∧
    (∀ h k k2 a, WF h → k2 ≠ k →
      hash_get (hash_remove h k2 a).1 k = hash_get h k) ∧
    (∀ kv ∈ keysN 100, hash_get table100 kv.1 = some kv.2) := by
  refine ⟨?_, ?_, ?_, ?_⟩
  · intro h k v a h2 a2 hwf heq
    exact (hash_set_spec hwf heq).2.1
  · intro h k k2 v a h2 a2 hwf hne heq
    exact (hash_set_spec hwf heq).2.2.1 k (Ne.symm hne)
  · intro h k k2 a hwf hne
    exact (hash_remove_spec hwf k2 a rfl).2.2.1 k (Ne.symm hne)
  · have hwfE : WF emptyTable := reachable_wf reachable_emptyTable
    have hnd : ((keysN 100).map Prod.fst).Nodup := by decide!
    exact (setAll_get (keysN 100) emptyTable hwfE hnd).2.1

/-- C1 witness: inserting "foo" with 7 into the empty table makes hash_get
find it with value 7, and key "73" of the 100-key test table is found with
value 73. -/
theorem C1_insert_then_lookup_witness :
    WF emptyTable ∧ hash_set emptyTable "foo" 7 [] = (some tableFoo, []) ∧
    hash_get tableFoo "foo" = some 7 ∧
    ("73", (73 : Int)) ∈ keysN 100 ∧
    hash_get table100 "73" = some 73 := by
  have h1 : WF emptyTable := by decide!
  have h2 : hash_set emptyTable "foo" 7 [] = (some tableFoo, []) := by decide!
  have h3 : ("73", (73 : Int)) ∈ keysN 100 := by decide!
  exact ⟨h1, h2, C1_insert_then_lookup.1 emptyTable "foo" 7 [] tableFoo [] h1 h2,
    h3, C1_insert_then_lookup.2.2.2 ("73", 73) h3⟩

/-- C4: every reachable table has a power-of-two bucket count of at least
the configured minimum 32, and hash_remove on a minimum-size table leaves
the bucket count at the minimum: it never drops below 32. -/
theorem C4_bucket_count_invariant :
    ∀ h, Reachable h →
      (∃ m, h.bucket_count = 2 ^ m) ∧
      MIN_BUCKET_COUNT ≤ h.bucket_count ∧
      (h.bucket_count = MIN_BUCKET_COUNT →
        ∀ k a, (hash_remove h k a).1.bucket_count = MIN_BUCKET_COUNT) := by
  intro h hr
  have hwf := reachable_wf hr
  refine ⟨⟨Nat.log2 h.bucket_count, hwf.pow2⟩, hwf.min_le, ?_⟩
  intro hmin k a
  obtain ⟨_, hc1, _, _⟩ := hash_unlink_spec hwf k
  have hcond : ¬(SHRINK_THRESHOLD > (hash_unlink h k).load_factor ∧
      MIN_BUCKET_COUNT < (hash_unlink h k).bucket_count) := by
    rintro ⟨_, hlt⟩
    rw [hc1, hmin] at hlt
    exact lt_irrefl _ hlt
  simp only [hash_remove, if_neg hcond]
  exact hc1.trans hmin

/-- C4 witness: the fresh table has bucket count 32 = 2 ^ 5 ≥ 32 and a
removal from it keeps the bucket count at 32. -/
theorem C4_bucket_count_invariant_witness :
    Reachable emptyTable ∧
    ((∃ m, emptyTable.bucket_count = 2 ^ m) ∧
      MIN_BUCKET_COUNT ≤ emptyTable.bucket_count ∧
      (emptyTable.bucket_count = MIN_BUCKET_COUNT →
        ∀ k a, (hash_remove emptyTable k a).1.bucket_count
          = MIN_BUCKET_COUNT)) :=
  ⟨reachable_emptyTable,
    C4_bucket_count_invariant emptyTable reachable_emptyTable⟩

/-- C5: after a successful structural insert whose resulting load factor
exceeds the grow threshold 3/2, hash_set attempts, within the same call, a
grow resize to double the bucket count, and a successful grow yields a
table of exactly twice the original bucket count. -/
theorem C5_grow_attempted :
    ∀ h k v a h1 a1, try_set h k v a = (some h1, a1) →
      GROW_THRESHOLD < h1.load_factor →
      (hash_set h k v a
        = match try_resize h1 (h1.bucket_count * 2) a1 with
          | (none, a2) => (some h1, a2)
          | (some h3, a2) => (some h3, a2)) ∧
      (∀ h3 a2, WF h →
        try_resize h1 (h1.bucket_count * 2) a1 = (some h3, a2) →
        h3.bucket_count = 2 * h.bucket_count) := by
  intro h k v a h1 a1 hts hgrow
  constructor
  · simp only [hash_set, hts]
    rw [if_pos hgrow]
  · intro h3 a2 hwf hres
    obtain ⟨hwf1, hcount1, _, _, _, _⟩ := try_set_spec hwf hts
    have h2c : MIN_BUCKET_COUNT ≤ h1.bucket_count * 2 := by
      have := hwf1.min_le
      omega
    obtain ⟨_, hcount3, _, _⟩ :=
      try_resize_spec hwf1 h2c (pow2_double hwf1.pow2) hres
    rw [hcount3, hcount1, Nat.mul_comm]

/-- C5 witness: the 49th insert into table48 yields load factor 49/32 >
3/2; the grow to 64 buckets succeeds and doubles the bucket count. -/
theorem C5_grow_attempted_witness :
    try_set table48 "48" 48 [] = (some table49, []) ∧
    GROW_THRESHOLD < table49.load_factor ∧
    WF table48 ∧
    try_resize table49 (table49.bucket_count * 2) [] = (some table49grown, []) ∧
    table49grown.bucket_count = 2 * table48.bucket_count := by
  have h1 : try_set table48 "48" 48 [] = (some table49, []) := by decide!
  have h2 : GROW_THRESHOLD < table49.load_factor := by decide!
  have h3 : WF table48 := by decide!
  have h4 : try_resize table49 (table49.bucket_count * 2) []
      = (some table49grown, []) := by decide!
  exact ⟨h1, h2, h3, h4,
    (C5_grow_attempted table48 "48" 48 [] table49 [] h1 h2).2
      table49grown [] h3 h4⟩

theorem foldl_visitLog : ∀ (L : List Entry) (acc : List (String × Int)),
    L.foldl (fun acc e => visitLog e.key e.value acc) acc
      = acc ++ L.map (fun e => (e.key, e.value)) := by
  intro L
  induction L with
  | nil =>
    intro acc
    simp
  | cons e rest ih =>
    intro acc
    rw [List.foldl_cons, ih]
    simp [visitLog]

/-- C7: hash_iterate folds the callback over exactly the stored entries,
threading the context through every invocation: the collecting callback
returns precisely the list of stored (key, value) pairs, so no stored pair
is skipped and none is visited twice; on the table {foo -> 1, bar -> 2,
baz -> 3} it visits exactly those three pairs once each. -/
theorem C7_iterate_exactly_once :
    (∀ (α : Type) (h : Hash) (f : String → Int → α → α) (c : α),
      hash_iterate h f c
        = h.entries.foldl (fun ctx e => f e.key e.value ctx) c) ∧
    (∀ h : Hash, hash_iterate h visitLog []
      = h.entries.map (fun e => (e.key, e.value))) ∧
    (hash_iterate table3 visitLog []).Perm
      [("foo", 1), ("bar", 2), ("baz", 3)] := by
  refine ⟨?_, ?_, ?_⟩
  · intro α h f c
    exact hash_iterate_eq h f c
  · intro h
    rw [hash_iterate_eq, foldl_visitLog]
    simp
  · decide!

/-- C8: the load-factor accumulator is maintained incrementally: exactly
+1/bucket_count on an insert that creates a new entry, exactly
-1/bucket_count on a removal that deletes an entry, and unchanged by a
value-overwriting insert and by the removal of an absent key (which leaves
the table untouched). -/
theorem C8_load_factor_increments :
    (∀ h k v a h2 a2, hash_get h k = none →
      try_set h k v a = (some h2, a2) →
      h2.load_factor = h.load_factor + 1 / (h.bucket_count : ℚ)) ∧
    (∀ h k v a h2 a2 w, hash_get h k = some w →
      try_set h k v a = (some h2, a2) →
      h2.load_factor = h.load_factor ∧ a2 = a) ∧
    (∀ h k w, hash_get h k = some w →
      (hash_unlink h k).load_factor
        = h.load_factor - 1 / (h.bucket_count : ℚ)) ∧
    (∀ h k, hash_get h k = none → hash_unlink h k = h) := by
  refine ⟨?_, ?_, ?_, ?_⟩
  · intro h k v a h2 a2 hnone heq
    rcases try_set_cases heq with ⟨e, hf, rfl, rfl⟩ | ⟨hf, rfl⟩
    · rw [hash_get_none_iff] at hnone
      rw [hnone] at hf
      cases hf
    · rfl
  · intro h k v a h2 a2 w hsome heq
    rcases try_set_cases heq with ⟨e, hf, rfl, rfl⟩ | ⟨hf, rfl⟩
    · exact ⟨rfl, rfl⟩
    · rw [hash_get_none_iff.mpr hf] at hsome
      cases hsome
  · intro h k w hsome
    obtain ⟨e, hf⟩ := hash_get_some_find hsome
    rw [hash_unlink_eq_found hf]
    rfl
  · intro h k hnone
    exact hash_unlink_eq_absent (hash_get_none_iff.mp hnone)

/-- C8 witness: inserting "foo" into the empty table adds exactly 1/32 to
the accumulator; overwriting it changes nothing; unlinking it subtracts
exactly 1/32; removing the absent "bar" leaves the table untouched. -/
theorem C8_load_factor_increments_witness :
    hash_get emptyTable "foo" = none ∧
    try_set emptyTable "foo" 7 [] = (some tableFoo, []) ∧
    tableFoo.load_factor
      = emptyTable.load_factor + 1 / (emptyTable.bucket_count : ℚ) ∧
    hash_get tableFoo "foo" = some 7 ∧
    (((try_set tableFoo "foo" 9 []).1).getD tableFoo).load_factor
      = tableFoo.load_factor ∧
    (hash_unlink tableFoo "foo").load_factor
      = tableFoo.load_factor - 1 / (tableFoo.bucket_count : ℚ) ∧
    hash_get tableFoo "bar" = none ∧
    hash_unlink tableFoo "bar" = tableFoo := by
  have h1 : hash_get emptyTable "foo" = none := by decide!
  have h2 : try_set emptyTable "foo" 7 [] = (some tableFoo, []) := by decide!
  have h3 : hash_get tableFoo "foo" = some 7 := by decide!
  have h4 : try_set tableFoo "foo" 9 []
      = (some (((try_set tableFoo "foo" 9 []).1).getD tableFoo), []) := by
    decide!
  have h5 : hash_get tableFoo "bar" = none := by decide!
  refine ⟨h1, h2,
    C8_load_factor_increments.1 emptyTable "foo" 7 [] tableFoo [] h1 h2,
    h3,
    (C8_load_factor_increments.2.1 tableFoo "foo" 9 []
      (((try_set tableFoo "foo" 9 []).1).getD tableFoo) [] 7 h3 h4).1,
    C8_load_factor_increments.2.2.1 tableFoo "foo" 7 h3,
    h5,
    C8_load_factor_increments.2.2.2 tableFoo "bar" h5⟩

/-- C9: for every reachable table the load-factor accumulator equals the
number of stored entries divided by the bucket count exactly: with the
power-of-two bucket count constant over each table's lifetime and every
resize rebuilding the accumulator from zero, the increments never drift
(in the exact-rational model of the C doubles, whose operations on these
dyadic values are themselves exact). -/
theorem C9_load_factor_exact :
    ∀ h, Reachable h →
      h.load_factor = (h.size : ℚ) / (h.bucket_count : ℚ) :=
  fun _ hr => (reachable_wf hr).load

/-- C9 witness: the 100-key table, grown twice, holds 100 entries in 128
buckets and its accumulator is exactly 100/128. -/
theorem C9_load_factor_exact_witness :
    Reachable table100 ∧
    table100.load_factor = (table100.size : ℚ) / (table100.bucket_count : ℚ) ∧
    table100.size = 100 ∧ table100.bucket_count = 128 := by
  have hr : Reachable table100 :=
    reachable_setAll (keysN 100) reachable_emptyTable
  refine ⟨hr, C9_load_factor_exact table100 hr, by decide!, by decide!⟩

/-- C2: resize is all-or-nothing: when the structural insert succeeds but
the grow's try_resize fails, hash_set still returns successfully with the
handle on the structurally-updated original table — unchanged bucket
count, new pair stored, every other pair intact; likewise for
hash_remove's shrink; and a successful try_resize (the only case in which
the handle is repointed) yields a table binding every key exactly as
before. -/
theorem C2_resize_all_or_nothing :
    (∀ h k v a h1 a1 a2, WF h →
      try_set h k v a = (some h1, a1) →
      GROW_THRESHOLD < h1.load_factor →
      try_resize h1 (h1.bucket_count * 2) a1 = (none, a2) →
      hash_set h k v a = (some h1, a2) ∧
      h1.bucket_count = h.bucket_count ∧
      hash_get h1 k = some v ∧
      (∀ k2, k2 ≠ k → hash_get h1 k2 = hash_get h k2)) ∧
    (∀ h k a a2, WF h →
      SHRINK_THRESHOLD > (hash_unlink h k).load_factor →
      MIN_BUCKET_COUNT < (hash_unlink h k).bucket_count →
      try_resize (hash_unlink h k) ((hash_unlink h k).bucket_count / 2) a
        = (none, a2) →
      hash_remove h k a = (hash_unlink h k, a2) ∧
      (hash_unlink h k).bucket_count = h.bucket_count ∧
      hash_get (hash_unlink h k) k = none ∧
      (∀ k2, k2 ≠ k → hash_get (hash_unlink h k) k2 = hash_get h k2)) ∧
    (∀ h n a h2 a2, WF h → MIN_BUCKET_COUNT ≤ n →
      n = 2 ^ Nat.log2 n → try_resize h n a = (some h2, a2) →
      ∀ k2, hash_get h2 k2 = hash_get h k2) := by
  refine ⟨?_, ?_, ?_⟩
  · intro h k v a h1 a1 a2 hwf hts hgrow hres
    obtain ⟨_, hcount1, hget1, hframe1, _, _⟩ := try_set_spec hwf hts
    refine ⟨?_, hcount1, hget1, hframe1⟩
    simp only [hash_set, hts]
    rw [if_pos hgrow, hres]
  · intro h k a a2 hwf hload hcount hres
    obtain ⟨_, hcount1, hget1, hframe1⟩ := hash_unlink_spec hwf k
    refine ⟨?_, hcount1, hget1, hframe1⟩
    simp only [hash_remove]
    rw [if_pos ⟨hload, hcount⟩, hres]
  · intro h n a h2 a2 hwf hn hp hres
    exact (try_resize_spec hwf hn hp hres).2.2.2

/-- C2 witness: inserting the 49th key with the grow's table allocation
failing defers the grow: hash_set returns the 49-entry table at its
original 32 buckets, with the new key stored and old keys intact. -/
theorem C2_resize_all_or_nothing_witness :
    WF table48 ∧
    try_set table48 "48" 48 [true, true, false]
      = (some tableDeferredGrow, [false]) ∧
    GROW_THRESHOLD < tableDeferredGrow.load_factor ∧
    try_resize tableDeferredGrow (tableDeferredGrow.bucket_count * 2) [false]
      = (none, []) ∧
    hash_set table48 "48" 48 [true, true, false]
      = (some tableDeferredGrow, []) ∧
    tableDeferredGrow.bucket_count = table48.bucket_count ∧
    hash_get tableDeferredGrow "48" = some 48 ∧
    hash_get tableDeferredGrow "7" = hash_get table48 "7" := by
  have h1 : WF table48 := by decide!
  have h2 : try_set table48 "48" 48 [true, true, false]
      = (some tableDeferredGrow, [false]) := by decide!
  have h3 : GROW_THRESHOLD < tableDeferredGrow.load_factor := by decide!
  have h4 : try_resize tableDeferredGrow
      (tableDeferredGrow.bucket_count * 2) [false] = (none, []) := by decide!
  obtain ⟨ha, hb, hc, hd⟩ := C2_resize_all_or_nothing.1 table48 "48" 48
    [true, true, false] tableDeferredGrow [false] [] h1 h2 h3 h4
  exact ⟨h1, h2, h3, h4, ha, hb, hc, hd "7" (by decide!)⟩

/-- C3 (amended): within every bucket chain of every reachable table, keys
are pairwise distinct; try_set on a present key overwrites the value in
place — no allocation, no load-factor change, identical per-chain key
lists, no new entry — and a hash_set call on a present key behaves the
same provided the load factor is not already above the grow threshold
(when a deferred grow is pending, the same call may instead retry the grow
and rebuild the table, preserving the key/value map); in all cases
inserting the same key twice leaves exactly one stored entry holding the
latest value. -/
theorem C3_duplicate_free_overwrite :
    (∀ h, Reachable h → ∀ i, ((h.bucket i).map Entry.key).Nodup) ∧
    (∀ h k v a w, WF h → hash_get h k = some w →
      try_set h k v a = (some (updTable h k v), a) ∧
      (updTable h k v).load_factor = h.load_factor ∧
      (∀ j, ((updTable h k v).bucket j).map Entry.key
        = (h.bucket j).map Entry.key) ∧
      (updTable h k v).size = h.size) ∧
    (∀ h k v a h2 a2 w, WF h → ¬ GROW_THRESHOLD < h.load_factor →
      hash_get h k = some w → hash_set h k v a = (some h2, a2) →
      h2 = updTable h k v ∧ a2 = a) ∧
    (∀ h k v1 v2, WF h →
      (setAll h [(k, v1), (k, v2)]).entries.countP
        (fun e => e.key == k) = 1 ∧
      hash_get (setAll h [(k, v1), (k, v2)]) k = some v2) := by
  refine ⟨?_, ?_, ?_, ?_⟩
  · exact fun h hr i => (reachable_wf hr).nodup i
  · intro h k v a w hwf hw
    obtain ⟨e, hf⟩ := hash_get_some_find hw
    obtain ⟨_, _, hsize, hload, _, _⟩ := try_set_found hwf (v := v) hf
    refine ⟨try_set_eq_found v a hf, hload, ?_, hsize⟩
    intro j
    rcases eq_or_ne (bidx h k) j with rfl | hbne
    · have hbs : (updTable h k v).bucket (bidx h k)
          = chainUpdate (h.bucket (bidx h k)) k v := by
        unfold updTable
        exact bucket_mk_set_self _ _ (bidx_lt hwf.count_pos k)
      rw [hbs, chainUpdate_map_key]
    · have hbn : (updTable h k v).bucket j = h.bucket j := by
        unfold updTable
        exact bucket_mk_set_ne _ _ hbne
      rw [hbn]
  · intro h k v a h2 a2 w hwf hgrow hw heq
    obtain ⟨e, hf⟩ := hash_get_some_find hw
    have hts := try_set_eq_found v a hf
    simp only [hash_set, hts] at heq
    have hgrow2 : ¬ GROW_THRESHOLD < (updTable h k v).load_factor := hgrow
    rw [if_neg hgrow2] at heq
    simp only [Option.some.injEq, Prod.mk.injEq] at heq
    exact ⟨heq.1.symm, heq.2.symm⟩
  · intro h k v1 v2 hwf
    obtain ⟨h1, hset1⟩ := hash_set_nil h k v1
    obtain ⟨h2, hset2⟩ := hash_set_nil h1 k v2
    have hstep : setAll h [(k, v1), (k, v2)] = h2 := by
      simp only [setAll, List.foldl_cons, List.foldl_nil, hset1,
        Option.getD_some, hset2]
    obtain ⟨hwf1, _, _, _⟩ := hash_set_spec hwf hset1
    obtain ⟨hwf2, hget2, _, _⟩ := hash_set_spec hwf1 hset2
    rw [hstep]
    refine ⟨?_, hget2⟩
    exact countP_key_eq_one (entries_map_key_nodup hwf2)
      ⟨⟨k, v2⟩, mem_entries_of_hash_get hwf2 hget2, rfl⟩

/-- C3 witness: chains of the reachable one-entry table are duplicate
free; overwriting its present key "foo" changes neither structure nor load
factor when no grow is pending, and inserting "a" twice into the empty
table leaves exactly one entry holding the latest value. -/
theorem C3_duplicate_free_overwrite_witness :
    Reachable tableFoo ∧
    (∀ i, ((tableFoo.bucket i).map Entry.key).Nodup) ∧
    WF tableFoo ∧ hash_get tableFoo "foo" = some 7 ∧
    try_set tableFoo "foo" 9 [] = (some (updTable tableFoo "foo" 9), []) ∧
    (updTable tableFoo "foo" 9).load_factor = tableFoo.load_factor ∧
    ¬ GROW_THRESHOLD < tableFoo.load_factor ∧
    hash_set tableFoo "foo" 9 []
      = (some (((hash_set tableFoo "foo" 9 []).1).getD tableFoo), []) ∧
    ((hash_set tableFoo "foo" 9 []).1).getD tableFoo
      = updTable tableFoo "foo" 9 ∧
    (setAll emptyTable [("a", 1), ("a", 2)]).entries.countP
      (fun e => e.key == "a") = 1 ∧
    hash_get (setAll emptyTable [("a", 1), ("a", 2)]) "a" = some 2 := by
  have hr : Reachable tableFoo :=
    Reachable.set emptyTable "foo" 7 [] tableFoo [] reachable_emptyTable
      (by decide!)
  have h1 : WF tableFoo := by decide!
  have h2 : hash_get tableFoo "foo" = some 7 := by decide!
  obtain ⟨ha, hb, _, _⟩ :=
    C3_duplicate_free_overwrite.2.1 tableFoo "foo" 9 [] 7 h1 h2
  have h3 : ¬ GROW_THRESHOLD < tableFoo.load_factor := by decide!
  have h4 : hash_set tableFoo "foo" 9 []
      = (some (((hash_set tableFoo "foo" 9 []).1).getD tableFoo), []) := by
    decide!
  obtain ⟨hc, _⟩ := C3_duplicate_free_overwrite.2.2.1 tableFoo "foo" 9 []
    (((hash_set tableFoo "foo" 9 []).1).getD tableFoo) [] 7 h1 h3 h2 h4
  have h5 : WF emptyTable := by decide!
  obtain ⟨hd, he⟩ := C3_duplicate_free_overwrite.2.2.2 emptyTable "a" 1 2 h5
  exact ⟨hr, C3_duplicate_free_overwrite.1 tableFoo hr, h1, h2, ha, hb,
    h3, h4, hc, hd, he⟩

/-- C3 counterexample: tableDeferredGrow is reachable (its grow was
deferred by an allocation failure, leaving the load factor 49/32 above the
threshold) and holds key "0"; the hash_set call overwriting the present
key "0" then retries the grow: the bucket count doubles from 32 to 64 and
the load-factor accumulator changes, refuting the claim that a hash_set of
a present key changes no chain structure and no load factor. -/
theorem C3_duplicate_free_overwrite_counterexample :
    Reachable tableDeferredGrow ∧
    hash_get tableDeferredGrow "0" = some 0 ∧
    hash_set tableDeferredGrow "0" 999 [] = (some tableDGupd, []) ∧
    tableDeferredGrow.bucket_count = 32 ∧
    tableDGupd.bucket_count = 64 ∧
    tableDGupd.load_factor ≠ tableDeferredGrow.load_factor := by
  refine ⟨?_, by decide!, by decide!, by decide!, by decide!, by decide!⟩
  have h48 : Reachable table48 :=
    reachable_setAll (keysN 48) reachable_emptyTable
  have heq : hash_set table48 "48" 48 [true, true, false]
      = (some tableDeferredGrow, []) := by decide!
  exact Reachable.set table48 "48" 48 [true, true, false]
    tableDeferredGrow [] h48 heq

/-- C6 (amended): hash_remove of an absent key signals no error and leaves
every key's lookup unchanged; it returns the table exactly as it was ―
chain structure, load factor and bucket count included — provided the
shrink condition (load factor below 0.375 and bucket count above the
minimum) does not hold on entry; when a deferred shrink is pending, the
call may instead shrink the table, changing its bucket count. -/
theorem C6_remove_absent_noop :
    ∀ h k a, WF h → hash_get h k = none →
      (¬(SHRINK_THRESHOLD > h.load_factor ∧
          MIN_BUCKET_COUNT < h.bucket_count) →
        hash_remove h k a = (h, a)) ∧
      (∀ k2, hash_get (hash_remove h k a).1 k2 = hash_get h k2) := by
  intro h k a hwf hnone
  have hun : hash_unlink h k = h :=
    hash_unlink_eq_absent (hash_get_none_iff.mp hnone)
  constructor
  · intro hcond
    simp only [hash_remove, hun]
    rw [if_neg hcond]
  · intro k2
    rcases eq_or_ne k2 k with rfl | hne
    · rcases hrr : hash_remove h k2 a with ⟨h2, a2⟩
      obtain ⟨_, hg, _, _⟩ := hash_remove_spec hwf k2 a hrr
      show hash_get h2 k2 = hash_get h k2
      rw [hg, hnone]
    · exact (hash_remove_spec hwf k a rfl).2.2.1 k2 hne

/-- C6 witness: removing the absent "bar" from the one-entry table (where
no shrink is possible: 32 buckets is the minimum) returns the table
unchanged and preserves the lookup of "foo". -/
theorem C6_remove_absent_noop_witness :
    WF tableFoo ∧ hash_get tableFoo "bar" = none ∧
    ¬(SHRINK_THRESHOLD > tableFoo.load_factor ∧
        MIN_BUCKET_COUNT < tableFoo.bucket_count) ∧
    hash_remove tableFoo "bar" [] = (tableFoo, []) ∧
    hash_get (hash_remove tableFoo "bar" []).1 "foo"
      = hash_get tableFoo "foo" := by
  have h1 : WF tableFoo := by decide!
  have h2 : hash_get tableFoo "bar" = none := by decide!
  have h3 : ¬(SHRINK_THRESHOLD > tableFoo.load_factor ∧
      MIN_BUCKET_COUNT < tableFoo.bucket_count) := by decide!
  obtain ⟨ha, hb⟩ := C6_remove_absent_noop tableFoo "bar" [] h1 h2
  exact ⟨h1, h2, h3, ha h3, hb "foo"⟩

/-- C6 counterexample: tableDeferredShrink is reachable (its shrink was
deferred by allocation failures) with 64 buckets at load factor 23/64; key
"99" is absent, yet hash_remove of "99" shrinks the table to 32 buckets —
the bucket count changes, so the call is not a no-op on the table. -/
theorem C6_remove_absent_noop_counterexample :
    Reachable tableDeferredShrink ∧
    hash_get tableDeferredShrink "99" = none ∧
    tableDeferredShrink.bucket_count = 64 ∧
    (hash_remove tableDeferredShrink "99" []).1.bucket_count = 32 := by
  refine ⟨?_, by decide!, by decide!, by decide!⟩
  exact reachable_removeAll ((List.range 26).map toString)
    (reachable_setAll (keysN 49) reachable_emptyTable)

/-- C10: hash_remove evaluates the shrink condition whether or not the key
was found: on a reachable table with the key absent, if the load factor is
below the shrink threshold, the bucket count is above the minimum and the
resize allocations succeed, the call itself shrinks the table — the
handle is repointed to a table of half the bucket count with every lookup
preserved. -/
theorem C10_remove_absent_shrinks :
    ∀ h k a h3 a2, Reachable h → hash_get h k = none →
      SHRINK_THRESHOLD > h.load_factor →
      MIN_BUCKET_COUNT < h.bucket_count →
      try_resize h (h.bucket_count / 2) a = (some h3, a2) →
      hash_remove h k a = (h3, a2) ∧
      h3.bucket_count = h.bucket_count / 2 ∧
      (∀ k2, hash_get h3 k2 = hash_get h k2) := by
  intro h k a h3 a2 hr hnone hload hcount hres
  have hwf := reachable_wf hr
  have hun : hash_unlink h k = h :=
    hash_unlink_eq_absent (hash_get_none_iff.mp hnone)
  obtain ⟨hge, hp⟩ := pow2_half hwf.pow2 hcount
  obtain ⟨_, hcount3, _, hframe3⟩ := try_resize_spec hwf hge hp hres
  refine ⟨?_, hcount3, hframe3⟩
  simp only [hash_remove, hun]
  rw [if_pos ⟨hload, hcount⟩, hres]

/-- C10 witness: on the reachable deferred-shrink table, removing the
absent key "99" itself performs the shrink from 64 to 32 buckets. -/
theorem C10_remove_absent_shrinks_witness :
    Reachable tableDeferredShrink ∧
    hash_get tableDeferredShrink "99" = none ∧
    SHRINK_THRESHOLD > tableDeferredShrink.load_factor ∧
    MIN_BUCKET_COUNT < tableDeferredShrink.bucket_count ∧
    try_resize tableDeferredShrink (tableDeferredShrink.bucket_count / 2) []
      = (some tableShrunk, []) ∧
    hash_remove tableDeferredShrink "99" [] = (tableShrunk, []) ∧
    tableShrunk.bucket_count = tableDeferredShrink.bucket_count / 2 := by
  have hr : Reachable tableDeferredShrink :=
    reachable_removeAll ((List.range 26).map toString)
      (reachable_setAll (keysN 49) reachable_emptyTable)
  have h1 : hash_get tableDeferredShrink "99" = none := by decide!
  have h2 : SHRINK_THRESHOLD > tableDeferredShrink.load_factor := by decide!
  have h3 : MIN_BUCKET_COUNT < tableDeferredShrink.bucket_count := by decide!
  have h4 : try_resize tableDeferredShrink
      (tableDeferredShrink.bucket_count / 2) []
      = (some tableShrunk, []) := by decide!
  obtain ⟨ha, hb, _⟩ := C10_remove_absent_shrinks tableDeferredShrink "99" []
    tableShrunk [] hr h1 h2 h3 h4
  exact ⟨hr, h1, h2, h3, h4, ha, hb⟩

end HashC
